import Mathlib

/-!
Verification development for the `gest` test-report tool (`main.go`).
The Go program is shallowly embedded: Go maps that are created on first
sight and then mutated in place are modelled as association lists with
`lookupA` / `ensureA` / `modifyA`; the streaming ingest loop over
`go test -json` events is `ingestEvent` folded over the input lines;
coverage-profile parsing, tree building and bottom-up aggregation are
`coverStep` / `buildTree` / `aggregate`.
-/

namespace Gest

/-! ## Association lists (model of Go maps with insertion order) -/

def lookupA {α : Type} : List (String × α) → String → Option α
  | [], _ => none
  | (k', v) :: rest, k => if k' = k then some v else lookupA rest k

def ensureA {α : Type} : List (String × α) → String → α → List (String × α)
  | [], k, v₀ => [(k, v₀)]
  | (k', v) :: rest, k, v₀ =>
      if k' = k then (k', v) :: rest else (k', v) :: ensureA rest k v₀

def modifyA {α : Type} : List (String × α) → String → (α → α) → List (String × α)
  | [], _, _ => []
  | (k', v) :: rest, k, f =>
      if k' = k then (k', f v) :: rest else (k', v) :: modifyA rest k f

/-! ## Data model of the event aggregator (`TestEvent` … `PackageResult`) -/

/-- One decoded `go test -json` record (`TestEvent` in `main.go`). -/
structure TestEvent where
  time : String := ""
  action : String
  pkg : String
  test : String := ""
  output : String := ""
  elapsed : ℚ := 0
deriving DecidableEq

/-- `SubTest` in `main.go`. -/
structure SubTest where
  name : String
  passed : Bool
  time : ℚ
deriving DecidableEq

/-- `ParentTest` in `main.go`; zero value of `Passed` is `false`. -/
structure ParentTest where
  name : String
  subtests : List SubTest := []
  passed : Bool := false
deriving DecidableEq

/-- `PackageResult` in `main.go`; zero values for all flags. -/
structure PackageResult where
  name : String
  passed : Bool := false
  skipped : Bool := false
  duration : ℚ := 0
  parentMap : List (String × ParentTest) := []
  hasTests : Bool := false
deriving DecidableEq

/-- The mutable accumulators of `main`'s ingest loop. -/
structure AggState where
  packages : List (String × PackageResult) := []
  testsPassed : Nat := 0
  testsFailed : Nat := 0
  testsDone : Nat := 0
deriving DecidableEq

/-! ## String helpers matching the Go standard-library calls in `main.go` -/

/-- `strings.SplitN(t, "/", 2)`: characters before the first slash, and
optionally the remainder after it. -/
def breakSlash : List Char → List Char × Option (List Char)
  | [] => ([], none)
  | c :: cs =>
      if c = '/' then ([], some cs)
      else
        let r := breakSlash cs
        (c :: r.1, r.2)

/-- `prettify` in `main.go`: underscores become spaces, slashes become
a spaced chevron. -/
def prettifyChars : List Char → List Char
  | [] => []
  | c :: cs =>
      if c = '_' then ' ' :: prettifyChars cs
      else if c = '/' then ' ' :: '>' :: ' ' :: prettifyChars cs
      else c :: prettifyChars cs

def prettify (s : String) : String := ⟨prettifyChars s.data⟩

/-- The parent-test key of an event's test identifier:
`prettify(strings.SplitN(test, "/", 2)[0])`. -/
def parentKey (t : String) : String := prettify ⟨(breakSlash t.data).1⟩

/-- The optional subtest name: `prettify(parts[1])` when the identifier
has a slash. -/
def subPart (t : String) : Option String :=
  ((breakSlash t.data).2).map (fun cs => prettify ⟨cs⟩)

/-! ## Ingesting one event (`main.go` lines 246–315) -/

/-- Update one parent test inside one package of the package map. -/
def atParent (pkgs : List (String × PackageResult)) (P pk : String)
    (f : ParentTest → ParentTest) : List (String × PackageResult) :=
  modifyA pkgs P (fun pr => { pr with parentMap := modifyA pr.parentMap pk f })

def ingestEvent (st : AggState) (ev : TestEvent) : AggState :=
  let pkgs0 := ensureA st.packages ev.pkg { name := ev.pkg }
  if ev.test = "" then
    if ev.action = "pass" then
      let f := fun (pr : PackageResult) =>
        { pr with passed := true, duration := ev.elapsed }
      { st with packages := modifyA pkgs0 ev.pkg f }
    else if ev.action = "fail" then
      let f := fun (pr : PackageResult) =>
        { pr with passed := false, duration := ev.elapsed }
      { st with packages := modifyA pkgs0 ev.pkg f }
    else { st with packages := pkgs0 }
  else
    let pk := parentKey ev.test
    let ensureParent := fun (pr : PackageResult) =>
      { pr with hasTests := true,
                parentMap := ensureA pr.parentMap pk { name := pk } }
    let pkgs1 := modifyA pkgs0 ev.pkg ensureParent
    match subPart ev.test with
    | some sub =>
        if ev.action = "pass" then
          let f := fun (pt : ParentTest) =>
            { pt with subtests := pt.subtests ++ [⟨sub, true, ev.elapsed⟩] }
          { st with packages := atParent pkgs1 ev.pkg pk f,
                    testsPassed := st.testsPassed + 1,
                    testsDone := st.testsDone + 1 }
        else if ev.action = "fail" then
          let f := fun (pt : ParentTest) =>
            { pt with subtests := pt.subtests ++ [⟨sub, false, ev.elapsed⟩],
                      passed := false }
          { st with packages := atParent pkgs1 ev.pkg pk f,
                    testsFailed := st.testsFailed + 1,
                    testsDone := st.testsDone + 1 }
        else { st with packages := pkgs1 }
    | none =>
        if ev.action = "pass" then
          let f := fun (pt : ParentTest) => { pt with passed := true }
          { st with packages := atParent pkgs1 ev.pkg pk f,
                    testsPassed := st.testsPassed + 1,
                    testsDone := st.testsDone + 1 }
        else if ev.action = "fail" then
          let f := fun (pt : ParentTest) => { pt with passed := false }
          { st with packages := atParent pkgs1 ev.pkg pk f,
                    testsFailed := st.testsFailed + 1,
                    testsDone := st.testsDone + 1 }
        else { st with packages := pkgs1 }

def initAgg : AggState := {}

/-- One stdin line: `none` models a record `json.Unmarshal` rejects
(`continue` in the Go loop). -/
def ingestLine (st : AggState) (l : Option TestEvent) : AggState :=
  match l with
  | none => st
  | some ev => ingestEvent st ev

def runAgg (lines : List (Option TestEvent)) : AggState :=
  lines.foldl ingestLine initAgg

/-! ## Finalization (`main.go` lines 321–330) -/

structure Summary where
  packages : List (String × PackageResult)
  suitesPassed : Nat
  suitesFailed : Nat
  suitesSkipped : Nat
deriving DecidableEq

def finalizePkgs : List (String × PackageResult) → Summary
  | [] => ⟨[], 0, 0, 0⟩
  | (k, pr) :: rest =>
      let s := finalizePkgs rest
      if !pr.hasTests then
        ⟨(k, { pr with skipped := true }) :: s.packages,
          s.suitesPassed, s.suitesFailed, s.suitesSkipped + 1⟩
      else if pr.passed then
        ⟨(k, pr) :: s.packages,
          s.suitesPassed + 1, s.suitesFailed, s.suitesSkipped⟩
      else
        ⟨(k, pr) :: s.packages,
          s.suitesPassed, s.suitesFailed + 1, s.suitesSkipped⟩

def finalizeRun (lines : List (Option TestEvent)) : Summary :=
  finalizePkgs (runAgg lines).packages

/-! ## Observation helpers -/

/-- One parent-test entry of a package map, if the package and parent exist. -/
def lookupParentIn (pkgs : List (String × PackageResult)) (P pk : String) :
    Option ParentTest :=
  (lookupA pkgs P).bind fun pr => lookupA pr.parentMap pk

/-- The `Passed` flag of one parent test of a package map. -/
def parentPassedIn (pkgs : List (String × PackageResult)) (P pk : String) :
    Option Bool :=
  (lookupParentIn pkgs P pk).map (·.passed)

/-- The `Passed` flag of one parent test, if the package and parent exist. -/
def parentPassed? (st : AggState) (P pk : String) : Option Bool :=
  parentPassedIn st.packages P pk

/-- One parent-test entry, if the package and parent exist. -/
def lookupParent? (st : AggState) (P pk : String) : Option ParentTest :=
  lookupParentIn st.packages P pk

/-! ## Coverage profile parsing (`parseCoverProfile`, `main.go` 68–108) -/

/-- `FileCoverage` in `main.go`: Go maps used as sets of line numbers. -/
structure FileCoverage where
  file : String
  covered : Finset ℕ := ∅
  uncovered : Finset ℕ := ∅
  total : Finset ℕ := ∅
deriving DecidableEq

/-- Maximal run of leading ASCII digits, and the rest. -/
def takeDigits : List Char → List Char × List Char
  | [] => ([], [])
  | c :: cs =>
      if c.isDigit then
        let r := takeDigits cs
        (c :: r.1, r.2)
      else ([], c :: cs)

def digitsToNat (ds : List Char) : Nat :=
  ds.foldl (fun n c => n * 10 + (c.toNat - 48)) 0

/-- Greedy `\d+`, failing on an empty run. -/
def parseNum (cs : List Char) : Option (Nat × List Char) :=
  let r := takeDigits cs
  if r.1 = [] then none else some (digitsToNat r.1, r.2)

def expectChar (c : Char) : List Char → Option (List Char)
  | [] => none
  | x :: xs => if x = c then some xs else none

/-- Matches `(\d+)\.\d+,\d+\.\d+ \d+ (\d+)$` after the colon, returning
the first line number and the hit count. -/
def matchSuffix (cs : List Char) : Option (Nat × Nat) := do
  let (n1, r) ← parseNum cs
  let r ← expectChar '.' r
  let (_, r) ← parseNum r
  let r ← expectChar ',' r
  let (_, r) ← parseNum r
  let r ← expectChar '.' r
  let (_, r) ← parseNum r
  let r ← expectChar ' ' r
  let (_, r) ← parseNum r
  let r ← expectChar ' ' r
  let (n7, r) ← parseNum r
  if r = [] then some (n1, n7) else none

/-- Splits at the last colon.  The greedy group `(.+)` of the Go regexp
`^(.+):(\d+)\.\d+,\d+\.\d+ \d+ (\d+)$` always extends to the last colon,
because nothing after the colon may match `:` again. -/
def splitLastColon : List Char → Option (List Char × List Char)
  | [] => none
  | c :: cs =>
      match splitLastColon cs with
      | some r => some (c :: r.1, r.2)
      | none => if c = ':' then some ([], cs) else none

/-- `re.FindStringSubmatch` of the coverage-line regexp: the file path,
the starting line number, and the hit count. -/
def matchCoverLine (s : String) : Option (String × Nat × Nat) :=
  match splitLastColon s.data with
  | none => none
  | some r =>
      if r.1 = [] then none
      else (matchSuffix r.2).map (fun p => (⟨r.1⟩, p.1, p.2))

/-- `strings.HasPrefix(line, "mode:")`. -/
def isModeLine (s : String) : Bool :=
  match s.data with
  | 'm' :: 'o' :: 'd' :: 'e' :: ':' :: _ => true
  | _ => false

/-- The record a line contributes: mode-header lines are skipped before
the regexp is tried, unmatched lines are skipped silently. -/
def effRecord (l : String) : Option (String × Nat × Nat) :=
  if isModeLine l then none else matchCoverLine l

def mkFC (fp : String) : FileCoverage := { file := fp }

/-- The body of the scan loop for one matched record. -/
def applyRecord (m : List (String × FileCoverage)) (fp : String)
    (ln cnt : Nat) : List (String × FileCoverage) :=
  let m := ensureA m fp (mkFC fp)
  let f := fun (fc : FileCoverage) =>
    { fc with total := insert ln fc.total,
              covered := if 0 < cnt then insert ln fc.covered else fc.covered,
              uncovered := if 0 < cnt then fc.uncovered else insert ln fc.uncovered }
  modifyA m fp f

def coverStep (m : List (String × FileCoverage)) (l : String) :
    List (String × FileCoverage) :=
  match effRecord l with
  | none => m
  | some r => applyRecord m r.1 r.2.1 r.2.2

def parseLines (lines : List String) : List (String × FileCoverage) :=
  lines.foldl coverStep []

/-- UTF-8 byte width of one character (`Char.utf8Size`). -/
def charBytes (c : Char) : Nat :=
  if c.toNat < 128 then 1
  else if c.toNat < 2048 then 2
  else if c.toNat < 65536 then 3
  else 4

/-- Byte length of a line as the scanner sees it. -/
def utf8Len (s : String) : Nat := (s.data.map charBytes).sum

/-- `bufio.MaxScanTokenSize`: with the default buffer, `bufio.Scanner`
cannot deliver a line of 64 KiB or more. -/
def maxTokenSize : Nat := 65536

/-- The `bufio.Scanner` loop with line splitting: it delivers lines in
order until the first line of at least `maxTokenSize` bytes, where
`Scan` returns false and `scanner.Err()` reports `bufio.ErrTooLong`.
Returns the delivered lines and whether the scan errored. -/
def scanLines : List String → List String × Bool
  | [] => ([], false)
  | l :: rest =>
      if maxTokenSize ≤ utf8Len l then ([], true)
      else
        let r := scanLines rest
        (l :: r.1, r.2)

/-- `parseCoverProfile`: a file that cannot be opened is `none` (the
early `return nil, err`); otherwise the scanner delivers lines until a
scan error and the function returns the accumulated map together with
`scanner.Err()` (`return result, scanner.Err()`, `main.go` 107). -/
def parseCoverProfile (file : Option (List String)) :
    Option (List (String × FileCoverage)) × Bool :=
  match file with
  | none => (none, true)
  | some ls => (some (parseLines (scanLines ls).1), (scanLines ls).2)

/-- The exit code of `main`'s coverage branch (`main.go` 400–404):
`os.Exit(1)` when `parseCoverProfile` reports an error, normal
termination otherwise. -/
def coverageExitCode (file : Option (List String)) : Nat :=
  if (parseCoverProfile file).2 then 1 else 0

/-! ## Coverage tree (`TreeNode`, `buildTree`, `aggregate`) -/

inductive TreeNode : Type where
  | node (name : String) (isDir : Bool) (children : List TreeNode)
      (covered total : Nat) (uncovered : List Nat) (coverage : ℚ)

def TreeNode.name : TreeNode → String
  | .node nm _ _ _ _ _ _ => nm

def TreeNode.isDir : TreeNode → Bool
  | .node _ d _ _ _ _ _ => d

def TreeNode.children : TreeNode → List TreeNode
  | .node _ _ ch _ _ _ _ => ch

def TreeNode.covered : TreeNode → Nat
  | .node _ _ _ c _ _ _ => c

def TreeNode.total : TreeNode → Nat
  | .node _ _ _ _ t _ _ => t

def TreeNode.uncovered : TreeNode → List Nat
  | .node _ _ _ _ _ u _ => u

def TreeNode.coverage : TreeNode → ℚ
  | .node _ _ _ _ _ _ cov => cov

def TreeNode.setChildren : TreeNode → List TreeNode → TreeNode
  | .node nm d _ c t u cov, ch => .node nm d ch c t u cov

/-- A fresh node created while walking a path (zero counters). -/
def newNode (nm : String) (d : Bool) : TreeNode := .node nm d [] 0 0 [] 0

/-- `sort.Ints` over the keys of a Go map used as a set: the ascending
enumeration of the set's elements. -/
def sortedLines (s : Finset ℕ) : List ℕ :=
  (List.range (s.sup id + 1)).filter (fun n => decide (n ∈ s))

/-- The terminal-segment update: covered/total are the set sizes, the
uncovered lines are sorted ascending, the percentage is set only when
the denominator is positive. -/
def setLeafData (t : TreeNode) (fc : FileCoverage) : TreeNode :=
  match t with
  | .node nm d ch _ _ _ cov =>
      let c := fc.covered.card
      let tot := fc.total.card
      let unc := sortedLines fc.uncovered
      .node nm d ch c tot unc (if 0 < tot then (c : ℚ) / (tot : ℚ) * 100 else cov)

def replaceFirst (l : List TreeNode) (nm : String) (n : TreeNode) :
    List TreeNode :=
  match l with
  | [] => []
  | c :: cs => if c.name = nm then n :: cs else c :: replaceFirst cs nm n

/-- Walks/creates one node per path segment; a segment is a directory
node iff it is not the last one.  Existing nodes are reused as-is. -/
def insertPath (t : TreeNode) (parts : List String) (fc : FileCoverage) :
    TreeNode :=
  match parts with
  | [] => setLeafData t fc
  | p :: rest =>
      match t.children.find? (fun c => c.name = p) with
      | some c => t.setChildren (replaceFirst t.children p (insertPath c rest fc))
      | none => t.setChildren (t.children ++ [insertPath (newNode p (!rest.isEmpty)) rest fc])

/-- `strings.Split(path, "/")` (the path separator). -/
def splitSlash : List Char → List (List Char)
  | [] => [[]]
  | c :: cs =>
      let r := splitSlash cs
      if c = '/' then [] :: r
      else
        match r with
        | [] => [[c]]
        | a :: rest => (c :: a) :: rest

def pathParts (s : String) : List String :=
  (splitSlash s.data).map (fun cs => (⟨cs⟩ : String))

def rootNode : TreeNode := .node "." true [] 0 0 [] 0

def buildTree (fileData : List (String × FileCoverage)) : TreeNode :=
  fileData.foldl (fun t kv => insertPath t (pathParts kv.1) kv.2) rootNode

mutual
/-- `aggregate`: post-order; a directory's covered/total become the sums
over its (aggregated) children, its percentage is recomputed only when
the new total is positive; a file node is returned unmodified. -/
def aggregate : TreeNode → TreeNode
  | .node nm d ch c tot unc cov =>
      if d then
        let ch' := aggregateList ch
        let tc := (ch'.map TreeNode.covered).sum
        let tl := (ch'.map TreeNode.total).sum
        .node nm d ch' tc tl unc (if 0 < tl then (tc : ℚ) / (tl : ℚ) * 100 else cov)
      else .node nm d ch c tot unc cov

def aggregateList : List TreeNode → List TreeNode
  | [] => []
  | t :: ts => aggregate t :: aggregateList ts
end

/-- Looks a node up by its path segments. -/
def findNode (t : TreeNode) : List String → Option TreeNode
  | [] => some t
  | p :: rest =>
      match t.children.find? (fun c => c.name = p) with
      | some c => findNode c rest
      | none => none

/-! ## Association-list lemmas -/

theorem lookupA_ensureA_self {α : Type} (m : List (String × α)) (k : String)
    (v₀ : α) : lookupA (ensureA m k v₀) k = some ((lookupA m k).getD v₀) := by
  induction m with
  | nil => simp [ensureA, lookupA]
  | cons kv rest ih =>
      obtain ⟨k', v⟩ := kv
      by_cases h : k' = k <;> simp [ensureA, lookupA, h, ih]

theorem lookupA_ensureA_ne {α : Type} (m : List (String × α)) {k k' : String}
    (v₀ : α) (h : k' ≠ k) : lookupA (ensureA m k v₀) k' = lookupA m k' := by
  induction m with
  | nil =>
      have h' : k ≠ k' := fun h' => h h'.symm
      simp [ensureA, lookupA, h']
  | cons kv rest ih =>
      obtain ⟨k'', v⟩ := kv
      by_cases h2 : k'' = k
      · simp [ensureA, h2]
      · simp [ensureA, lookupA, h2, ih]

theorem lookupA_modifyA_self {α : Type} (m : List (String × α)) (k : String)
    (f : α → α) : lookupA (modifyA m k f) k = (lookupA m k).map f := by
  induction m with
  | nil => simp [modifyA, lookupA]
  | cons kv rest ih =>
      obtain ⟨k', v⟩ := kv
      by_cases h : k' = k <;> simp [modifyA, lookupA, h, ih]

theorem lookupA_modifyA_ne {α : Type} (m : List (String × α)) {k k' : String}
    (f : α → α) (h : k' ≠ k) : lookupA (modifyA m k f) k' = lookupA m k' := by
  induction m with
  | nil => simp [modifyA]
  | cons kv rest ih =>
      obtain ⟨k'', v⟩ := kv
      by_cases h2 : k'' = k
      · subst h2
        have h3 : ¬ k'' = k' := fun h' => h h'.symm
        simp [modifyA, lookupA, h3]
      · simp [modifyA, lookupA, h2, ih]

theorem keys_modifyA {α : Type} (m : List (String × α)) (k : String)
    (f : α → α) : (modifyA m k f).map Prod.fst = m.map Prod.fst := by
  induction m with
  | nil => simp [modifyA]
  | cons kv rest ih =>
      obtain ⟨k', v⟩ := kv
      by_cases h : k' = k <;> simp [modifyA, h, ih]

theorem lookupA_none_iff {α : Type} (m : List (String × α)) (k : String) :
    lookupA m k = none ↔ k ∉ m.map Prod.fst := by
  induction m with
  | nil => simp [lookupA]
  | cons kv rest ih =>
      obtain ⟨k', v⟩ := kv
      by_cases h : k' = k
      · simp [lookupA, h]
      · have h' : ¬ k = k' := fun he => h he.symm
        simp [lookupA, h, h', ih]

theorem keys_ensureA {α : Type} (m : List (String × α)) (k : String) (v₀ : α) :
    (ensureA m k v₀).map Prod.fst =
      if k ∈ m.map Prod.fst then m.map Prod.fst else m.map Prod.fst ++ [k] := by
  induction m with
  | nil => simp [ensureA]
  | cons kv rest ih =>
      obtain ⟨k', v⟩ := kv
      by_cases h : k' = k
      · simp [ensureA, h]
      · simp only [ensureA, if_neg h, List.map_cons, ih]
        have h' : ¬ k = k' := fun he => h he.symm
        by_cases h2 : k ∈ rest.map Prod.fst <;> simp [h2, h']

theorem ensureA_of_lookupA_some {α : Type} {m : List (String × α)}
    {k : String} {v : α} (h : lookupA m k = some v) (v₀ : α) :
    ensureA m k v₀ = m := by
  induction m with
  | nil => simp [lookupA] at h
  | cons kv rest ih =>
      obtain ⟨k', v'⟩ := kv
      by_cases h2 : k' = k
      · simp [ensureA, h2]
      · simp only [lookupA, if_neg h2] at h
        simp [ensureA, h2, ih h]

theorem modifyA_of_fix {α : Type} {m : List (String × α)} {k : String}
    {f : α → α} (h : ∀ v, lookupA m k = some v → f v = v) :
    modifyA m k f = m := by
  induction m with
  | nil => simp [modifyA]
  | cons kv rest ih =>
      obtain ⟨k', v'⟩ := kv
      by_cases h2 : k' = k
      · subst h2
        have := h v' (by simp [lookupA])
        simp [modifyA, this]
      · simp only [modifyA, if_neg h2]
        have := ih (fun v hv => h v (by simp [lookupA, if_neg h2, hv]))
        simp [this]

theorem mem_modifyA_forall {α : Type} {m : List (String × α)} {k : String}
    {f : α → α} {P : α → Prop} (hm : ∀ kv ∈ m, P kv.2)
    (hf : ∀ v, P v → P (f v)) : ∀ kv ∈ modifyA m k f, P kv.2 := by
  induction m with
  | nil => simp [modifyA]
  | cons kv rest ih =>
      obtain ⟨k', v'⟩ := kv
      have hv : P v' := hm (k', v') (by simp)
      have hrest : ∀ kv ∈ rest, P kv.2 := fun kv h => hm kv (by simp [h])
      by_cases h2 : k' = k
      · simp only [modifyA, if_pos h2]
        intro kv hkv
        rcases List.mem_cons.mp hkv with h3 | h3
        · subst h3
          exact hf v' hv
        · exact hrest kv h3
      · simp only [modifyA, if_neg h2]
        intro kv hkv
        rcases List.mem_cons.mp hkv with h3 | h3
        · subst h3
          exact hv
        · exact ih hrest kv h3

theorem mem_ensureA_forall {α : Type} {m : List (String × α)} {k : String}
    {v₀ : α} {P : α → Prop} (hm : ∀ kv ∈ m, P kv.2) (h0 : P v₀) :
    ∀ kv ∈ ensureA m k v₀, P kv.2 := by
  induction m with
  | nil => simp [ensureA, h0]
  | cons kv rest ih =>
      obtain ⟨k', v'⟩ := kv
      have hv : P v' := hm (k', v') (by simp)
      have hrest : ∀ kv ∈ rest, P kv.2 := fun kv h => hm kv (by simp [h])
      by_cases h2 : k' = k
      · simpa [ensureA, h2] using hm
      · simp only [ensureA, if_neg h2]
        intro kv hkv
        rcases List.mem_cons.mp hkv with h3 | h3
        · subst h3
          exact hv
        · exact ih hrest kv h3

theorem lookupA_modify_ensure {α : Type} (m : List (String × α)) (k : String)
    (d : α) (f : α → α) :
    lookupA (modifyA (ensureA m k d) k f) k = some (f ((lookupA m k).getD d)) := by
  rw [lookupA_modifyA_self, lookupA_ensureA_self]
  rfl

/-! ## C1: the parent-test passed flag -/

/-- What one test-scoped event does to its parent's passed flag:
a parent-level pass sets it, any fail clears it, a subtest-level pass
leaves it alone. -/
def parentStep (b : Bool) (ev : TestEvent) : Bool :=
  if ev.action = "pass" ∧ subPart ev.test = none then true
  else if ev.action = "fail" then false
  else b

/-- The default parent entry found after the ensure-step of the ingest
loop, expressed through the observation function. -/
theorem parentPassedIn_base (m : List (String × PackageResult)) (P pk : String) :
    ((lookupA ((lookupA m P).getD { name := P }).parentMap pk).getD
      { name := pk }).passed = (parentPassedIn m P pk).getD false := by
  simp only [parentPassedIn, lookupParentIn]
  rcases hpr : lookupA m P with _ | pr
  · simp [PackageResult.parentMap, lookupA]
  · rcases hpt : lookupA pr.parentMap pk with _ | pt <;> simp [hpt]

/-- Looking the parent up after ensure-package, mark-hasTests,
ensure-parent and one parent update `g`. -/
theorem parentPassedIn_atParent (m : List (String × PackageResult))
    (P pk : String) (g : ParentTest → ParentTest) :
    parentPassedIn
      (atParent (modifyA (ensureA m P { name := P }) P
        (fun pr => { pr with
                     hasTests := true,
                     parentMap := ensureA pr.parentMap pk { name := pk } }))
        P pk g) P pk
    = some (g ((lookupA ((lookupA m P).getD { name := P }).parentMap pk).getD
        { name := pk })).passed := by
  simp only [parentPassedIn, lookupParentIn, atParent]
  rw [lookupA_modifyA_self, lookupA_modify_ensure]
  simp only [Option.map_some', Option.some_bind]
  rw [lookupA_modify_ensure]
  simp only [Option.map_some']

/-- Looking the parent up when only the ensure-steps ran (an event whose
action is neither pass nor fail). -/
theorem parentPassedIn_ensureOnly (m : List (String × PackageResult))
    (P pk : String) :
    parentPassedIn
      (modifyA (ensureA m P { name := P }) P
        (fun pr => { pr with
                     hasTests := true,
                     parentMap := ensureA pr.parentMap pk { name := pk } }))
      P pk
    = some ((parentPassedIn m P pk).getD false) := by
  conv_rhs => rw [← parentPassedIn_base m P pk]
  simp only [parentPassedIn, lookupParentIn]
  rw [lookupA_modify_ensure]
  simp [lookupA_ensureA_self]

theorem parentPassed_ingest (st : AggState) (ev : TestEvent)
    (htest : ev.test ≠ "") :
    parentPassed? (ingestEvent st ev) ev.pkg (parentKey ev.test) =
      some (parentStep
        ((parentPassed? st ev.pkg (parentKey ev.test)).getD false) ev) := by
  simp only [parentPassed?, ingestEvent, if_neg htest]
  rcases hsub : subPart ev.test with _ | sub
  · by_cases hpass : ev.action = "pass"
    · simp only [if_pos hpass]
      rw [parentPassedIn_atParent]
      simp [parentStep, hpass, hsub]
    · by_cases hfail : ev.action = "fail"
      · simp only [if_neg hpass, if_pos hfail]
        rw [parentPassedIn_atParent]
        simp [parentStep, hpass, hfail]
      · simp only [if_neg hpass, if_neg hfail]
        rw [parentPassedIn_ensureOnly]
        simp [parentStep, hpass, hfail]
  · by_cases hpass : ev.action = "pass"
    · simp only [if_pos hpass]
      rw [parentPassedIn_atParent]
      simp only [parentPassedIn_base]
      simp [parentStep, hpass, hsub]
    · by_cases hfail : ev.action = "fail"
      · simp only [if_neg hpass, if_pos hfail]
        rw [parentPassedIn_atParent]
        simp [parentStep, hpass, hfail]
      · simp only [if_neg hpass, if_neg hfail]
        rw [parentPassedIn_ensureOnly]
        simp [parentStep, hpass, hfail]

theorem parentPassed_fold (P T : String) (evs : List TestEvent) (st : AggState)
    (h : ∀ ev ∈ evs, ev.pkg = P ∧ ev.test ≠ "" ∧ parentKey ev.test = prettify T) :
    (parentPassed? (evs.foldl ingestEvent st) P (prettify T)).getD false
      = evs.foldl parentStep ((parentPassed? st P (prettify T)).getD false)
    ∧ (evs ≠ [] →
        (parentPassed? (evs.foldl ingestEvent st) P (prettify T)).isSome = true) := by
  induction evs generalizing st with
  | nil => simp
  | cons e rest ih =>
      obtain ⟨hpkg, htest, hpar⟩ := h e (by simp)
      have hstep := parentPassed_ingest st e htest
      rw [hpkg, hpar] at hstep
      have hrest := ih (ingestEvent st e) (fun ev hv => h ev (by simp [hv]))
      constructor
      · simp only [List.foldl_cons]
        rw [hrest.1, hstep]
        rfl
      · intro _
        rcases Decidable.em (rest = []) with he | he
        · subst he
          simp only [List.foldl_cons, List.foldl_nil, hstep]
          rfl
        · exact hrest.2 he

/-- C1 (counterexample): the stream holds a subtest-level fail event for
parent `Foo` of package `p` (test identifier `Foo/Bar`), followed by a
parent-level pass event.  The claim demands the final passed flag be
`false` and never re-set to `true` after a failure, but the code's final
flag is `true`: a later parent-level pass event overwrites the failure. -/
theorem c1_counterexample :
    (subPart "Foo/Bar" = some "Bar" ∧ parentKey "Foo/Bar" = "Foo") ∧
    parentPassed? (runAgg [some ⟨"", "fail", "p", "Foo/Bar", "", 0⟩,
      some ⟨"", "pass", "p", "Foo", "", 0⟩]) "p" "Foo" = some true := by
  constructor
  · constructor <;> decide
  · decide

/-- C1 (amended): for a nonempty sequence of test-scoped pass/fail events
sharing one package `P` and one raw parent segment `T`, the parent's
final passed flag exists and equals the left fold of the events where a
parent-level pass sets it true, any fail (subtest- or parent-level)
clears it, and a subtest-level pass leaves it unchanged — so a failure
makes it false, but a later parent-level pass event does re-set it to
true. -/
theorem c1_parent_flag_fold (P T : String) (evs : List TestEvent)
    (hne : evs ≠ [])
    (h : ∀ ev ∈ evs, ev.pkg = P ∧ ev.test ≠ "" ∧ parentKey ev.test = prettify T ∧
      (ev.action = "pass" ∨ ev.action = "fail")) :
    parentPassed? (runAgg (evs.map some)) P (prettify T)
      = some (evs.foldl parentStep false) := by
  have hfold : runAgg (evs.map some) = evs.foldl ingestEvent initAgg := by
    simp [runAgg, List.foldl_map, ingestLine]
  have hmain := parentPassed_fold P T evs initAgg
    (fun ev hv => ⟨(h ev hv).1, (h ev hv).2.1, (h ev hv).2.2.1⟩)
  rw [hfold]
  rcases hs : parentPassed? (evs.foldl ingestEvent initAgg) P (prettify T)
    with _ | b
  · have := hmain.2 hne
    rw [hs] at this
    simp at this
  · have h1 := hmain.1
    rw [hs] at h1
    have hbase : (parentPassed? initAgg P (prettify T)).getD false = false := rfl
    rw [hbase] at h1
    simp only [Option.getD_some] at h1
    rw [h1]

/-- C1 (witness): the amended fold law evaluated on the counterexample
stream; the fold yields `true` because the parent-level pass arrives
after the subtest failure. -/
theorem c1_witness :
    parentPassed? (runAgg ([(⟨"", "fail", "p", "Foo/Bar", "", 0⟩ : TestEvent),
      ⟨"", "pass", "p", "Foo", "", 0⟩].map some)) "p" (prettify "Foo")
      = some ([(⟨"", "fail", "p", "Foo/Bar", "", 0⟩ : TestEvent),
          ⟨"", "pass", "p", "Foo", "", 0⟩].foldl parentStep false) :=
  c1_parent_flag_fold "p" "Foo"
    [⟨"", "fail", "p", "Foo/Bar", "", 0⟩, ⟨"", "pass", "p", "Foo", "", 0⟩]
    (by decide) (by decide)

/-! ## C2 and C5: finalization counters -/

theorem finalizePkgs_counts (ps : List (String × PackageResult)) :
    (finalizePkgs ps).suitesSkipped = ps.countP (fun kv => !kv.2.hasTests)
    ∧ (finalizePkgs ps).suitesPassed
        = ps.countP (fun kv => kv.2.hasTests && kv.2.passed)
    ∧ (finalizePkgs ps).suitesFailed
        = ps.countP (fun kv => kv.2.hasTests && !kv.2.passed) := by
  induction ps with
  | nil => simp [finalizePkgs]
  | cons kv rest ih =>
      obtain ⟨k, pr⟩ := kv
      by_cases h1 : pr.hasTests <;> by_cases h2 : pr.passed <;>
        simp [finalizePkgs, h1, h2, ih.1, ih.2.1, ih.2.2, List.countP_cons]

theorem finalizePkgs_skipped_flag (ps : List (String × PackageResult)) :
    ∀ kv ∈ (finalizePkgs ps).packages,
      kv.2.hasTests = false → kv.2.skipped = true := by
  induction ps with
  | nil => simp [finalizePkgs]
  | cons kv rest ih =>
      obtain ⟨k, pr⟩ := kv
      by_cases h1 : pr.hasTests
      · by_cases h2 : pr.passed <;>
        · simp only [finalizePkgs, h1, h2, Bool.not_true, ite_false, ite_true,
            Bool.false_eq_true, if_false, if_true]
          intro kv2 hkv2
          rcases List.mem_cons.mp hkv2 with h3 | h3
          · subst h3
            intro hfalse
            rw [h1] at hfalse
            cases hfalse
          · exact ih kv2 h3
      · simp only [finalizePkgs, h1, Bool.not_false, if_true]
        intro kv2 hkv2
        rcases List.mem_cons.mp hkv2 with h3 | h3
        · subst h3
          intro _
          rfl
        · exact ih kv2 h3

theorem finalizePkgs_sum (ps : List (String × PackageResult)) :
    (finalizePkgs ps).suitesPassed + (finalizePkgs ps).suitesFailed
      + (finalizePkgs ps).suitesSkipped = ps.length := by
  induction ps with
  | nil => simp [finalizePkgs]
  | cons kv rest ih =>
      obtain ⟨k, pr⟩ := kv
      by_cases h1 : pr.hasTests <;> by_cases h2 : pr.passed <;>
        simp [finalizePkgs, h1, h2] <;> omega

/-- C2: after finalization, a package with no test-scoped events is
marked skipped regardless of its package-level passed flag, the skipped
counter counts exactly the packages without tests, and the passed and
failed counters only count packages that do have tests. -/
theorem c2_skipped_classification (lines : List (Option TestEvent)) :
    (∀ kv ∈ (finalizeRun lines).packages,
        kv.2.hasTests = false → kv.2.skipped = true)
    ∧ (finalizeRun lines).suitesSkipped
        = (runAgg lines).packages.countP (fun kv => !kv.2.hasTests)
    ∧ (finalizeRun lines).suitesPassed
        = (runAgg lines).packages.countP (fun kv => kv.2.hasTests && kv.2.passed)
    ∧ (finalizeRun lines).suitesFailed
        = (runAgg lines).packages.countP
            (fun kv => kv.2.hasTests && !kv.2.passed) :=
  ⟨finalizePkgs_skipped_flag (runAgg lines).packages,
    finalizePkgs_counts (runAgg lines).packages⟩

/-- C2 (witness): a package seeing only a package-level pass event (no
test-scoped event) ends up with `skipped = true` after finalization. -/
theorem c2_witness :
    (("q", ({ name := "q", passed := true, skipped := true, duration := 1 }
      : PackageResult)) : String × PackageResult).2.skipped = true :=
  (c2_skipped_classification [some ⟨"", "pass", "q", "", "", 1⟩]).1
    ("q", { name := "q", passed := true, skipped := true, duration := 1 })
    (by decide) (by decide)

theorem packages_keys_ingestEvent (st : AggState) (ev : TestEvent) :
    (ingestEvent st ev).packages.map Prod.fst =
      (ensureA st.packages ev.pkg { name := ev.pkg }).map Prod.fst := by
  simp only [ingestEvent, atParent]
  by_cases h0 : ev.test = ""
  · simp only [if_pos h0]
    by_cases hp : ev.action = "pass"
    · simp [hp, keys_modifyA]
    · by_cases hf : ev.action = "fail" <;> simp [hp, hf, keys_modifyA]
  · simp only [if_neg h0]
    rcases hsub : subPart ev.test with _ | sub <;> simp only [hsub]
    · by_cases hp : ev.action = "pass"
      · simp [hp, keys_modifyA]
      · by_cases hf : ev.action = "fail" <;> simp [hp, hf, keys_modifyA]
    · by_cases hp : ev.action = "pass"
      · simp [hp, keys_modifyA]
      · by_cases hf : ev.action = "fail" <;> simp [hp, hf, keys_modifyA]

theorem keys_foldl (lines : List (Option TestEvent)) :
    ∀ st : AggState, (st.packages.map Prod.fst).Nodup →
      ((lines.foldl ingestLine st).packages.map Prod.fst).Nodup
      ∧ (∀ k, k ∈ (lines.foldl ingestLine st).packages.map Prod.fst ↔
          k ∈ st.packages.map Prod.fst
          ∨ k ∈ (lines.filterMap id).map TestEvent.pkg) := by
  induction lines with
  | nil =>
      intro st h
      simp [h]
  | cons l rest ih =>
      intro st h
      rcases l with _ | ev
      · have := ih st h
        simpa [ingestLine] using this
      · have hkeys : (ingestEvent st ev).packages.map Prod.fst =
            if ev.pkg ∈ st.packages.map Prod.fst then st.packages.map Prod.fst
            else st.packages.map Prod.fst ++ [ev.pkg] := by
          rw [packages_keys_ingestEvent, keys_ensureA]
        have hnd : ((ingestEvent st ev).packages.map Prod.fst).Nodup := by
          rw [hkeys]
          split_ifs with hmem
          · exact h
          · rw [List.nodup_append]
            exact ⟨h, List.nodup_singleton _, by simpa using hmem⟩
        have hrest := ih (ingestEvent st ev) hnd
        refine ⟨hrest.1, fun k => ?_⟩
        have h2 := hrest.2 k
        simp only [List.foldl_cons, ingestLine] at h2 ⊢
        rw [h2, hkeys]
        split_ifs with hmem
        · by_cases hk : k = ev.pkg
          · subst hk
            simp [hmem]
          · simp [hk]
        · by_cases hk : k = ev.pkg
          · subst hk
            simp
          · simp [hk]

/-- C5: passed + failed + skipped suite counters always sum to the
number of distinct package identifiers among the decodable records of
the stream. -/
theorem c5_suite_counters_partition (lines : List (Option TestEvent)) :
    (finalizeRun lines).suitesPassed + (finalizeRun lines).suitesFailed
      + (finalizeRun lines).suitesSkipped
    = ((lines.filterMap id).map TestEvent.pkg).toFinset.card := by
  have hsum := finalizePkgs_sum (runAgg lines).packages
  have hkeys := keys_foldl lines initAgg (by simp [initAgg])
  have hcard : ((runAgg lines).packages.map Prod.fst).toFinset.card
      = ((runAgg lines).packages.map Prod.fst).length :=
    List.toFinset_card_of_nodup hkeys.1
  have hset : ((runAgg lines).packages.map Prod.fst).toFinset
      = ((lines.filterMap id).map TestEvent.pkg).toFinset := by
    ext k
    simp only [List.mem_toFinset, runAgg]
    rw [hkeys.2 k]
    simp [initAgg]
  have hlen : ((runAgg lines).packages.map Prod.fst).length
      = (runAgg lines).packages.length := by simp
  calc (finalizeRun lines).suitesPassed + (finalizeRun lines).suitesFailed
        + (finalizeRun lines).suitesSkipped
      = (runAgg lines).packages.length := hsum
    _ = ((runAgg lines).packages.map Prod.fst).length := hlen.symm
    _ = ((runAgg lines).packages.map Prod.fst).toFinset.card := hcard.symm
    _ = ((lines.filterMap id).map TestEvent.pkg).toFinset.card := by rw [hset]

/-! ## C10: records whose action is neither pass nor fail -/

/-- The shape `ingestEvent` takes on an event whose action is neither
`"pass"` nor `"fail"`: only the ensure/mark steps run. -/
def ingestOther (st : AggState) (ev : TestEvent) : AggState :=
  let pkgs0 := ensureA st.packages ev.pkg { name := ev.pkg }
  if ev.test = "" then { st with packages := pkgs0 }
  else
    let pk := parentKey ev.test
    { st with packages := modifyA pkgs0 ev.pkg (fun pr =>
        { pr with
          hasTests := true,
          parentMap := ensureA pr.parentMap pk { name := pk } }) }

theorem ingestEvent_eq_other (st : AggState) (ev : TestEvent)
    (hp : ev.action ≠ "pass") (hf : ev.action ≠ "fail") :
    ingestEvent st ev = ingestOther st ev := by
  simp only [ingestEvent, ingestOther]
  by_cases h0 : ev.test = ""
  · simp [h0, hp, hf]
  · simp only [if_neg h0]
    rcases hsub : subPart ev.test with _ | sub <;> simp [hp, hf]

theorem lookupParentIn_ensurePkg (m : List (String × PackageResult))
    (P pk : String) :
    lookupParentIn (ensureA m P { name := P }) P pk = lookupParentIn m P pk := by
  simp only [lookupParentIn]
  rw [lookupA_ensureA_self]
  rcases hpr : lookupA m P with _ | pr
  · simp [PackageResult.parentMap, lookupA]
  · simp

theorem lookupParentIn_ensurePkg_ne (m : List (String × PackageResult))
    {P P' : String} (pk : String) (h : P' ≠ P) :
    lookupParentIn (ensureA m P { name := P }) P' pk
      = lookupParentIn m P' pk := by
  simp only [lookupParentIn]
  rw [lookupA_ensureA_ne _ _ h]

theorem lookupParentIn_markParent (m : List (String × PackageResult))
    (P pk : String) :
    lookupParentIn (modifyA (ensureA m P { name := P }) P (fun pr =>
        { pr with
          hasTests := true,
          parentMap := ensureA pr.parentMap pk { name := pk } })) P pk
      = some ((lookupParentIn m P pk).getD { name := pk }) := by
  simp only [lookupParentIn]
  rw [lookupA_modify_ensure]
  simp only [Option.some_bind]
  rw [lookupA_ensureA_self]
  rcases hpr : lookupA m P with _ | pr
  · simp [PackageResult.parentMap, lookupA]
  · simp

theorem lookupParentIn_markParent_otherParent (m : List (String × PackageResult))
    (P : String) {pk pk' : String} (h : pk' ≠ pk) :
    lookupParentIn (modifyA (ensureA m P { name := P }) P (fun pr =>
        { pr with
          hasTests := true,
          parentMap := ensureA pr.parentMap pk { name := pk } })) P pk'
      = lookupParentIn m P pk' := by
  simp only [lookupParentIn]
  rw [lookupA_modify_ensure]
  simp only [Option.some_bind]
  rw [lookupA_ensureA_ne _ _ h]
  rcases hpr : lookupA m P with _ | pr
  · simp [PackageResult.parentMap, lookupA]
  · simp

theorem lookupParentIn_markParent_otherPkg (m : List (String × PackageResult))
    {P P' : String} (pk pk' : String) (h : P' ≠ P) :
    lookupParentIn (modifyA (ensureA m P { name := P }) P (fun pr =>
        { pr with
          hasTests := true,
          parentMap := ensureA pr.parentMap pk { name := pk } })) P' pk'
      = lookupParentIn m P' pk' := by
  simp only [lookupParentIn]
  rw [lookupA_modifyA_ne _ _ h, lookupA_ensureA_ne _ _ h]

/-- C10 (counterexample): a single record with action `"run"` and test
identifier `Foo` creates a parent-test entry (name `Foo`, no subtests,
passed false) where none existed, so it does not leave all parent-test
entries unchanged. -/
theorem c10_counterexample :
    lookupParent? initAgg "p" "Foo" = none ∧
    lookupParent? (runAgg [some ⟨"", "run", "p", "Foo", "", 0⟩]) "p" "Foo"
      = some { name := "Foo" } := by
  constructor
  · rfl
  · decide

/-- C10 (amended): an event whose action is neither pass nor fail only
(a) creates the package entry on first sight, (b) when it carries a
test identifier, marks `hasTests` and creates — with passed false and no
subtests — the parent-test entry for the identifier's first segment if
absent, leaving an existing entry untouched; it changes no counter, no
other parent-test entry, and no package's passed flag or duration. -/
theorem c10_ignored_action_frame (st : AggState) (ev : TestEvent)
    (hp : ev.action ≠ "pass") (hf : ev.action ≠ "fail") :
    ((ingestEvent st ev).testsPassed = st.testsPassed
      ∧ (ingestEvent st ev).testsFailed = st.testsFailed
      ∧ (ingestEvent st ev).testsDone = st.testsDone)
    ∧ (∀ P pk, P ≠ ev.pkg →
        lookupParent? (ingestEvent st ev) P pk = lookupParent? st P pk)
    ∧ (ev.test ≠ "" →
        lookupParent? (ingestEvent st ev) ev.pkg (parentKey ev.test)
          = some ((lookupParent? st ev.pkg (parentKey ev.test)).getD
              { name := parentKey ev.test }))
    ∧ (ev.test ≠ "" → ∀ pk, pk ≠ parentKey ev.test →
        lookupParent? (ingestEvent st ev) ev.pkg pk
          = lookupParent? st ev.pkg pk)
    ∧ (ev.test = "" → ∀ pk,
        lookupParent? (ingestEvent st ev) ev.pkg pk
          = lookupParent? st ev.pkg pk)
    ∧ (∀ P, (lookupA (ingestEvent st ev).packages P).map
          (fun pr => (pr.passed, pr.duration))
        = if P = ev.pkg
          then some (((lookupA st.packages P).map
            (fun pr => (pr.passed, pr.duration))).getD (false, 0))
          else (lookupA st.packages P).map (fun pr => (pr.passed, pr.duration)))
    ∧ (ev.test ≠ "" →
        (lookupA (ingestEvent st ev).packages ev.pkg).map (·.hasTests)
          = some true) := by
  have hstep := ingestEvent_eq_other st ev hp hf
  refine ⟨?_, ?_, ?_, ?_, ?_, ?_, ?_⟩
  · rw [hstep]
    simp only [ingestOther]
    split_ifs <;> exact ⟨rfl, rfl, rfl⟩
  · intro P pk hne
    rw [hstep]
    simp only [lookupParent?, ingestOther]
    split_ifs
    · exact lookupParentIn_ensurePkg_ne st.packages pk hne
    · exact lookupParentIn_markParent_otherPkg st.packages _ pk hne
  · intro ht
    rw [hstep]
    simp only [lookupParent?, ingestOther, if_neg ht]
    exact lookupParentIn_markParent st.packages ev.pkg (parentKey ev.test)
  · intro ht pk hne
    rw [hstep]
    simp only [lookupParent?, ingestOther, if_neg ht]
    exact lookupParentIn_markParent_otherParent st.packages ev.pkg hne
  · intro h0 pk
    rw [hstep]
    simp only [lookupParent?, ingestOther, if_pos h0]
    exact lookupParentIn_ensurePkg st.packages ev.pkg pk
  · intro P
    rw [hstep]
    simp only [ingestOther]
    by_cases hP : P = ev.pkg
    · subst hP
      rw [if_pos rfl]
      split_ifs
      · rw [lookupA_ensureA_self]
        rcases h : lookupA st.packages ev.pkg with _ | pr <;> simp [h]
      · rw [lookupA_modify_ensure]
        rcases h : lookupA st.packages ev.pkg with _ | pr <;> simp [h]
    · rw [if_neg hP]
      split_ifs
      · rw [lookupA_ensureA_ne _ _ hP]
      · rw [lookupA_modifyA_ne _ _ hP, lookupA_ensureA_ne _ _ hP]
  · intro ht
    rw [hstep]
    simp only [ingestOther, if_neg ht]
    rw [lookupA_modify_ensure]
    simp

/-- C10 (witness): the frame theorem applied to a concrete `"run"`
record on the empty state, projected to the counter frame. -/
theorem c10_witness :
    (ingestEvent initAgg ⟨"", "run", "p", "Foo", "", 0⟩).testsPassed
        = initAgg.testsPassed
      ∧ (ingestEvent initAgg ⟨"", "run", "p", "Foo", "", 0⟩).testsFailed
        = initAgg.testsFailed
      ∧ (ingestEvent initAgg ⟨"", "run", "p", "Foo", "", 0⟩).testsDone
        = initAgg.testsDone :=
  (c10_ignored_action_frame initAgg ⟨"", "run", "p", "Foo", "", 0⟩
    (by decide) (by decide)).1

/-! ## C3: bottom-up aggregation -/

theorem aggregateList_eq_map (ts : List TreeNode) :
    aggregateList ts = ts.map aggregate := by
  induction ts with
  | nil => rfl
  | cons t ts ih => simp [aggregateList, ih]

mutual
/-- The aggregation invariant on the region `aggregate` visits: a
directory node's covered/total equal the sums over its children, checked
recursively, with the recursion stopping at non-directory nodes exactly
as `aggregate`'s does. -/
def aggOK : TreeNode → Bool
  | .node _ d ch c tot _ _ =>
      if d then
        decide (c = (ch.map TreeNode.covered).sum)
          && decide (tot = (ch.map TreeNode.total).sum)
          && aggOKList ch
      else true

def aggOKList : List TreeNode → Bool
  | [] => true
  | t :: ts => aggOK t && aggOKList ts
end

mutual
/-- Sum of the totals of the maximal non-directory nodes, descending
only through directory nodes (as `aggregate` does). -/
def fileTotalSum : TreeNode → Nat
  | .node _ d ch _ tot _ _ => if d then fileTotalSumList ch else tot

def fileTotalSumList : List TreeNode → Nat
  | [] => 0
  | t :: ts => fileTotalSum t + fileTotalSumList ts
end

mutual
/-- Sum of the totals of all non-directory nodes anywhere in the tree
(the per-file totals of a built tree). -/
def allFileTotalSum : TreeNode → Nat
  | .node _ d ch _ tot _ _ =>
      (if d then 0 else tot) + allFileTotalSumList ch

def allFileTotalSumList : List TreeNode → Nat
  | [] => 0
  | t :: ts => allFileTotalSum t + allFileTotalSumList ts
end

theorem aggOKList_eq_true (ts : List TreeNode) :
    aggOKList ts = true ↔ ∀ t ∈ ts, aggOK t = true := by
  induction ts with
  | nil => simp [aggOKList]
  | cons t ts ih => simp [aggOKList, ih]

theorem fileTotalSumList_eq (ts : List TreeNode) :
    fileTotalSumList ts = (ts.map fileTotalSum).sum := by
  induction ts with
  | nil => rfl
  | cons t ts ih => simp [fileTotalSumList, ih]

theorem aggregate_dir_eq (nm : String) (ch : List TreeNode) (c tot : Nat)
    (unc : List Nat) (cov : ℚ) :
    aggregate (TreeNode.node nm true ch c tot unc cov)
      = TreeNode.node nm true (aggregateList ch)
          ((aggregateList ch).map TreeNode.covered).sum
          ((aggregateList ch).map TreeNode.total).sum unc
          (if 0 < ((aggregateList ch).map TreeNode.total).sum
            then ((((aggregateList ch).map TreeNode.covered).sum : ℚ)
              / (((aggregateList ch).map TreeNode.total).sum : ℚ)) * 100
            else cov) := by
  rw [aggregate]
  rfl

theorem aggregate_file_eq (nm : String) (ch : List TreeNode) (c tot : Nat)
    (unc : List Nat) (cov : ℚ) :
    aggregate (TreeNode.node nm false ch c tot unc cov)
      = TreeNode.node nm false ch c tot unc cov := by
  rw [aggregate]
  rfl

theorem aggregate_spec_aux :
    ∀ n : Nat, ∀ t : TreeNode, sizeOf t ≤ n →
      aggOK (aggregate t) = true ∧ (aggregate t).total = fileTotalSum t := by
  intro n
  induction n with
  | zero =>
      intro t h
      obtain ⟨nm, d, ch, c, tot, unc, cov⟩ := t
      have hs := TreeNode.node.sizeOf_spec nm d ch c tot unc cov
      omega
  | succ n ih =>
      intro t h
      obtain ⟨nm, d, ch, c, tot, unc, cov⟩ := t
      have hs := TreeNode.node.sizeOf_spec nm d ch c tot unc cov
      have hch : ∀ x ∈ ch, sizeOf x ≤ n := by
        intro x hx
        have h1 := List.sizeOf_lt_of_mem hx
        omega
      cases d with
      | true =>
          rw [aggregate_dir_eq]
          have hkids : aggOKList (aggregateList ch) = true := by
            rw [aggregateList_eq_map, aggOKList_eq_true]
            intro x hx
            rcases List.mem_map.mp hx with ⟨y, hy, rfl⟩
            exact (ih y (hch y hy)).1
          constructor
          · rw [aggOK]
            simp [hkids]
          · rw [TreeNode.total, fileTotalSum]
            simp only [if_true]
            rw [fileTotalSumList_eq, aggregateList_eq_map, List.map_map]
            congr 1
            apply List.map_congr_left
            intro x hx
            exact (ih x (hch x hx)).2
      | false =>
          rw [aggregate_file_eq]
          refine ⟨?_, ?_⟩
          · rw [aggOK]
            rfl
          · rw [TreeNode.total, fileTotalSum]
            rfl

/-- C3 (counterexample): profile lines for files `a/b` and `a/b/c/d`
make `b` a file node with a directory node `c` below it; `aggregate`
stops at `b`, so directory `c` keeps total 0 while its child `d` has
total 1 — a directory node whose counts are not the sums of its
children's — and the root total 1 differs from the sum 2 of all
per-file totals. -/
theorem c3_counterexample :
    (findNode (aggregate (buildTree (parseLines
        ["a/b:1.1,1.1 1 1", "a/b/c/d:1.1,1.1 1 1"]))) ["a", "b", "c"]).map
        (fun nd => (nd.isDir, nd.covered, nd.total,
          (nd.children.map TreeNode.covered).sum,
          (nd.children.map TreeNode.total).sum))
      = some (true, 0, 0, 1, 1)
    ∧ (aggregate (buildTree (parseLines
        ["a/b:1.1,1.1 1 1", "a/b/c/d:1.1,1.1 1 1"]))).total = 1
    ∧ allFileTotalSum (buildTree (parseLines
        ["a/b:1.1,1.1 1 1", "a/b/c/d:1.1,1.1 1 1"])) = 2 := by
  refine ⟨?_, ?_, ?_⟩ <;> decide

/-- C3 (amended): after `aggregate`, the aggregation invariant holds on
the whole region the recursion visits — every directory node reachable
from the root through directory nodes has covered/total equal to the
sums over its direct children, recursively; the root's total equals the
sum of the totals of the maximal non-directory nodes (the per-file
totals, when no file path is a proper path-prefix of another); and a
non-directory node is returned unmodified. -/
theorem c3_aggregate_sums (t : TreeNode) :
    aggOK (aggregate t) = true
    ∧ (aggregate t).total = fileTotalSum t
    ∧ (t.isDir = false → aggregate t = t) := by
  obtain ⟨h1, h2⟩ := aggregate_spec_aux (sizeOf t) t (Nat.le_refl _)
  refine ⟨h1, h2, ?_⟩
  intro hfile
  obtain ⟨nm, d, ch, c, tot, unc, cov⟩ := t
  rw [TreeNode.isDir] at hfile
  subst hfile
  exact aggregate_file_eq nm ch c tot unc cov

/-- C3 (witness): the aggregation spec applied to a concrete one-file
tree: a file node is a fixed point of `aggregate`. -/
theorem c3_witness :
    aggOK (aggregate (TreeNode.node "f" false [] 2 3 [2] 0)) = true
    ∧ (aggregate (TreeNode.node "f" false [] 2 3 [2] 0)).total
        = fileTotalSum (TreeNode.node "f" false [] 2 3 [2] 0)
    ∧ aggregate (TreeNode.node "f" false [] 2 3 [2] 0)
        = TreeNode.node "f" false [] 2 3 [2] 0 :=
  ⟨(c3_aggregate_sums (TreeNode.node "f" false [] 2 3 [2] 0)).1,
    (c3_aggregate_sums (TreeNode.node "f" false [] 2 3 [2] 0)).2.1,
    (c3_aggregate_sums (TreeNode.node "f" false [] 2 3 [2] 0)).2.2 rfl⟩

/-! ## C4: concrete round trip -/

/-- C4: parsing the three-record profile for `a/b/file.go`, building the
tree and aggregating yields covered=2, total=3, uncovered=[2] at the
file node and covered=2, total=3 at `a/b`, `a` and the root. -/
theorem c4_round_trip :
    (findNode (aggregate (buildTree (parseLines
        ["a/b/file.go:1.1,1.1 1 1", "a/b/file.go:2.1,2.1 1 0",
          "a/b/file.go:3.1,3.1 1 1"]))) ["a", "b", "file.go"]).map
        (fun nd => (nd.covered, nd.total, nd.uncovered)) = some (2, 3, [2])
    ∧ (findNode (aggregate (buildTree (parseLines
        ["a/b/file.go:1.1,1.1 1 1", "a/b/file.go:2.1,2.1 1 0",
          "a/b/file.go:3.1,3.1 1 1"]))) ["a", "b"]).map
        (fun nd => (nd.covered, nd.total)) = some (2, 3)
    ∧ (findNode (aggregate (buildTree (parseLines
        ["a/b/file.go:1.1,1.1 1 1", "a/b/file.go:2.1,2.1 1 0",
          "a/b/file.go:3.1,3.1 1 1"]))) ["a"]).map
        (fun nd => (nd.covered, nd.total)) = some (2, 3)
    ∧ (findNode (aggregate (buildTree (parseLines
        ["a/b/file.go:1.1,1.1 1 1", "a/b/file.go:2.1,2.1 1 0",
          "a/b/file.go:3.1,3.1 1 1"]))) []).map
        (fun nd => (nd.covered, nd.total)) = some (2, 3) := by
  refine ⟨?_, ?_, ?_, ?_⟩ <;> decide

/-! ## C6: malformed records are skipped without effect -/

/-- C6: an undecodable stream record changes nothing in the event
aggregation, and a coverage line the record regexp rejects changes
nothing in profile parsing; in both cases the surrounding lines are
processed exactly as if the bad line were absent. -/
theorem c6_malformed_no_effect (xs ys : List (Option TestEvent))
    (ls ms : List String) (bad : String)
    (hbad : matchCoverLine bad = none) :
    runAgg (xs ++ none :: ys) = runAgg (xs ++ ys)
    ∧ parseLines (ls ++ bad :: ms) = parseLines (ls ++ ms) := by
  constructor
  · simp [runAgg, List.foldl_append, ingestLine]
  · have hstep : ∀ m, coverStep m bad = m := by
      intro m
      simp [coverStep, effRecord, hbad]
    simp [parseLines, List.foldl_append, hstep]

/-- C6 (witness): a coverage line with the hit count missing is rejected
by the record shape and leaves both pipelines unaffected. -/
theorem c6_witness :
    runAgg ([] ++ none :: [some ⟨"", "pass", "p", "", "", 0⟩])
      = runAgg ([] ++ [some ⟨"", "pass", "p", "", "", 0⟩])
    ∧ parseLines (["a:1.1,1.1 1 1"] ++ "a/b/file.go:2.1,2.1 1" :: [])
      = parseLines (["a:1.1,1.1 1 1"] ++ []) :=
  c6_malformed_no_effect [] [some ⟨"", "pass", "p", "", "", 0⟩]
    ["a:1.1,1.1 1 1"] [] "a/b/file.go:2.1,2.1 1" (by decide)

/-! ## C7: error conditions of coverage processing -/

theorem scanLines_err_iff (ls : List String) :
    (scanLines ls).2 = true ↔ ∃ l ∈ ls, maxTokenSize ≤ utf8Len l := by
  induction ls with
  | nil => simp [scanLines]
  | cons l rest ih =>
      by_cases h : maxTokenSize ≤ utf8Len l
      · simp [scanLines, h]
      · simp [scanLines, h, ih]

theorem utf8Len_replicate_a (n : Nat) :
    utf8Len ⟨List.replicate n 'a'⟩ = n := by
  have h1 : charBytes 'a' = 1 := by decide
  simp [utf8Len, List.map_replicate, List.sum_replicate, h1]

theorem exitCode_one_of_long_line (l : String)
    (h : maxTokenSize ≤ utf8Len l) : coverageExitCode (some [l]) = 1 := by
  simp [coverageExitCode, parseCoverProfile, scanLines, h]

/-- C7 (counterexample): a profile file that opens fine but whose single
line is 65536 bytes long makes the scanner fail (`bufio.ErrTooLong`
from `scanner.Err()`, returned at `main.go` 107), and the run exits
with code 1 — an error surfaced by a condition other than the file
being unopenable. -/
theorem c7_counterexample :
    (some [(⟨List.replicate 65536 'a'⟩ : String)] : Option (List String)) ≠ none
    ∧ coverageExitCode (some [⟨List.replicate 65536 'a'⟩]) = 1 := by
  constructor
  · exact fun h => Option.noConfusion h
  · refine exitCode_one_of_long_line _ ?_
    rw [utf8Len_replicate_a]
    exact Nat.le_refl _

/-- C7 (amended): `parseCoverProfile` reports an error exactly when the
profile file cannot be opened or the scanner fails mid-file (a line of
at least 64 KiB, `bufio.ErrTooLong`; on real hardware also an
underlying read failure, which the content-level embedding does not
model); the run then exits with code 1, and with code 0 exactly when no
error was reported. -/
theorem c7_error_conditions (file : Option (List String)) :
    ((parseCoverProfile file).2 = true ↔
        file = none ∨ ∃ ls, file = some ls ∧ ∃ l ∈ ls, maxTokenSize ≤ utf8Len l)
    ∧ (coverageExitCode file = 1 ↔ (parseCoverProfile file).2 = true)
    ∧ (coverageExitCode file = 0 ↔ (parseCoverProfile file).2 = false) := by
  refine ⟨?_, ?_, ?_⟩
  · cases file with
    | none => simp [parseCoverProfile]
    | some ls => simp [parseCoverProfile, scanLines_err_iff]
  · cases h : (parseCoverProfile file).2 <;> simp [coverageExitCode, h]
  · cases h : (parseCoverProfile file).2 <;> simp [coverageExitCode, h]

/-- C7 (witness): an unopenable profile gives exit code 1, an openable
empty profile gives exit code 0. -/
theorem c7_witness :
    coverageExitCode none = 1 ∧ coverageExitCode (some []) = 0 :=
  ⟨(c7_error_conditions none).2.1.mpr rfl,
    (c7_error_conditions (some [])).2.2.mpr rfl⟩

/-! ## C8: set semantics of duplicate records -/

def covOf (m : List (String × FileCoverage)) (fp : String) : Finset ℕ :=
  ((lookupA m fp).map (·.covered)).getD ∅

def uncovOf (m : List (String × FileCoverage)) (fp : String) : Finset ℕ :=
  ((lookupA m fp).map (·.uncovered)).getD ∅

def totOf (m : List (String × FileCoverage)) (fp : String) : Finset ℕ :=
  ((lookupA m fp).map (·.total)).getD ∅

theorem coverStep_none {l : String} (h : effRecord l = none)
    (m : List (String × FileCoverage)) : coverStep m l = m := by
  simp [coverStep, h]

theorem covOf_applyRecord_self (m : List (String × FileCoverage))
    (fp : String) (ln cnt : Nat) :
    covOf (applyRecord m fp ln cnt) fp
      = if 0 < cnt then insert ln (covOf m fp) else covOf m fp := by
  simp only [covOf, applyRecord]
  rw [lookupA_modify_ensure]
  rcases h : lookupA m fp with _ | fc <;> split_ifs with hc <;> simp [h, mkFC]

theorem uncovOf_applyRecord_self (m : List (String × FileCoverage))
    (fp : String) (ln cnt : Nat) :
    uncovOf (applyRecord m fp ln cnt) fp
      = if 0 < cnt then uncovOf m fp else insert ln (uncovOf m fp) := by
  simp only [uncovOf, applyRecord]
  rw [lookupA_modify_ensure]
  rcases h : lookupA m fp with _ | fc <;> split_ifs with hc <;> simp [h, mkFC]

theorem totOf_applyRecord_self (m : List (String × FileCoverage))
    (fp : String) (ln cnt : Nat) :
    totOf (applyRecord m fp ln cnt) fp = insert ln (totOf m fp) := by
  simp only [totOf, applyRecord]
  rw [lookupA_modify_ensure]
  rcases h : lookupA m fp with _ | fc <;> simp [h, mkFC]

theorem lookupA_applyRecord_ne (m : List (String × FileCoverage))
    {fp fp' : String} (ln cnt : Nat) (h : fp' ≠ fp) :
    lookupA (applyRecord m fp ln cnt) fp' = lookupA m fp' := by
  simp only [applyRecord]
  rw [lookupA_modifyA_ne _ _ h, lookupA_ensureA_ne _ _ h]

theorem covOf_coverStep_mono (m : List (String × FileCoverage)) (l : String)
    (fp : String) : covOf m fp ⊆ covOf (coverStep m l) fp := by
  rcases h : effRecord l with _ | r
  · rw [coverStep_none h]
  · obtain ⟨fp2, ln, cnt⟩ := r
    simp only [coverStep, h]
    by_cases hfp : fp = fp2
    · subst hfp
      rw [covOf_applyRecord_self]
      split_ifs
      · exact Finset.subset_insert _ _
      · exact Finset.Subset.refl _
    · simp only [covOf]
      rw [lookupA_applyRecord_ne _ _ _ hfp]

theorem uncovOf_coverStep_mono (m : List (String × FileCoverage)) (l : String)
    (fp : String) : uncovOf m fp ⊆ uncovOf (coverStep m l) fp := by
  rcases h : effRecord l with _ | r
  · rw [coverStep_none h]
  · obtain ⟨fp2, ln, cnt⟩ := r
    simp only [coverStep, h]
    by_cases hfp : fp = fp2
    · subst hfp
      rw [uncovOf_applyRecord_self]
      split_ifs
      · exact Finset.Subset.refl _
      · exact Finset.subset_insert _ _
    · simp only [uncovOf]
      rw [lookupA_applyRecord_ne _ _ _ hfp]

theorem totOf_coverStep_mono (m : List (String × FileCoverage)) (l : String)
    (fp : String) : totOf m fp ⊆ totOf (coverStep m l) fp := by
  rcases h : effRecord l with _ | r
  · rw [coverStep_none h]
  · obtain ⟨fp2, ln, cnt⟩ := r
    simp only [coverStep, h]
    by_cases hfp : fp = fp2
    · subst hfp
      rw [totOf_applyRecord_self]
      exact Finset.subset_insert _ _
    · simp only [totOf]
      rw [lookupA_applyRecord_ne _ _ _ hfp]

theorem covOf_foldl_mono (ls : List String) :
    ∀ m fp, covOf m fp ⊆ covOf (ls.foldl coverStep m) fp := by
  induction ls with
  | nil => intro m fp; exact Finset.Subset.refl _
  | cons l rest ih =>
      intro m fp
      exact (covOf_coverStep_mono m l fp).trans (ih (coverStep m l) fp)

theorem uncovOf_foldl_mono (ls : List String) :
    ∀ m fp, uncovOf m fp ⊆ uncovOf (ls.foldl coverStep m) fp := by
  induction ls with
  | nil => intro m fp; exact Finset.Subset.refl _
  | cons l rest ih =>
      intro m fp
      exact (uncovOf_coverStep_mono m l fp).trans (ih (coverStep m l) fp)

theorem totOf_foldl_mono (ls : List String) :
    ∀ m fp, totOf m fp ⊆ totOf (ls.foldl coverStep m) fp := by
  induction ls with
  | nil => intro m fp; exact Finset.Subset.refl _
  | cons l rest ih =>
      intro m fp
      exact (totOf_coverStep_mono m l fp).trans (ih (coverStep m l) fp)

theorem mem_after_record {l fp : String} {ln cnt : Nat}
    (h : effRecord l = some (fp, ln, cnt)) (m : List (String × FileCoverage)) :
    ln ∈ totOf (coverStep m l) fp
    ∧ (0 < cnt → ln ∈ covOf (coverStep m l) fp)
    ∧ (cnt = 0 → ln ∈ uncovOf (coverStep m l) fp) := by
  simp only [coverStep, h]
  refine ⟨?_, ?_, ?_⟩
  · rw [totOf_applyRecord_self]
    exact Finset.mem_insert_self _ _
  · intro hc
    rw [covOf_applyRecord_self, if_pos hc]
    exact Finset.mem_insert_self _ _
  · intro hc
    subst hc
    rw [uncovOf_applyRecord_self, if_neg (by omega)]
    exact Finset.mem_insert_self _ _

theorem lookupA_some_of_mem_totOf {m : List (String × FileCoverage)}
    {fp : String} {ln : Nat} (h : ln ∈ totOf m fp) :
    ∃ fc, lookupA m fp = some fc ∧ ln ∈ fc.total := by
  rcases hfc : lookupA m fp with _ | fc
  · simp [totOf, hfc] at h
  · refine ⟨fc, rfl, ?_⟩
    simpa [totOf, hfc] using h

theorem coverStep_already {m : List (String × FileCoverage)}
    {l fp : String} {ln cnt : Nat} (h : effRecord l = some (fp, ln, cnt))
    (h1 : ln ∈ totOf m fp) (h2 : 0 < cnt → ln ∈ covOf m fp)
    (h3 : cnt = 0 → ln ∈ uncovOf m fp) : coverStep m l = m := by
  obtain ⟨fc, hfc, hmem⟩ := lookupA_some_of_mem_totOf h1
  simp only [coverStep, h, applyRecord]
  rw [ensureA_of_lookupA_some hfc]
  apply modifyA_of_fix
  intro v hv
  rw [hfc] at hv
  injection hv with hv
  subst hv
  have hTot : insert ln fc.total = fc.total := Finset.insert_eq_self.mpr hmem
  by_cases hc : 0 < cnt
  · have hCov : insert ln fc.covered = fc.covered :=
      Finset.insert_eq_self.mpr (by simpa [covOf, hfc] using h2 hc)
    simp [hTot, hCov, hc]
  · have hc0 : cnt = 0 := by omega
    have hUncov : insert ln fc.uncovered = fc.uncovered :=
      Finset.insert_eq_self.mpr (by simpa [uncovOf, hfc] using h3 hc0)
    simp [hTot, hUncov, hc]

theorem mem_of_record_in_stream {ls : List String} {l fp : String}
    {ln cnt : Nat} (hl : l ∈ ls) (h : effRecord l = some (fp, ln, cnt)) :
    ln ∈ totOf (parseLines ls) fp
    ∧ (0 < cnt → ln ∈ covOf (parseLines ls) fp)
    ∧ (cnt = 0 → ln ∈ uncovOf (parseLines ls) fp) := by
  obtain ⟨s, t, rfl⟩ := List.append_of_mem hl
  have hsplit : parseLines (s ++ l :: t)
      = t.foldl coverStep (coverStep (s.foldl coverStep []) l) := by
    simp [parseLines, List.foldl_append]
  have hpt := mem_after_record h (s.foldl coverStep [])
  rw [hsplit]
  refine ⟨?_, ?_, ?_⟩
  · exact totOf_foldl_mono t _ fp hpt.1
  · intro hc
    exact covOf_foldl_mono t _ fp (hpt.2.1 hc)
  · intro hc
    exact uncovOf_foldl_mono t _ fp (hpt.2.2 hc)

/-- C8: duplicate coverage records never double count — re-processing a
line already seen earlier in the profile leaves the parse result
unchanged — and duplicate line numbers with disagreeing hit counts are
not reconciled: a record with a positive count puts the line in the
covered set, a record with count 0 puts it in the uncovered set, every
record puts it (once) in the total set. -/
theorem c8_set_semantics (xs ys zs : List String) (line fp : String)
    (ln c : Nat) :
    parseLines (xs ++ line :: ys ++ line :: zs)
        = parseLines (xs ++ line :: ys ++ zs)
    ∧ ((∃ l ∈ xs, effRecord l = some (fp, ln, c)) → 0 < c →
        ln ∈ covOf (parseLines xs) fp)
    ∧ ((∃ l ∈ xs, effRecord l = some (fp, ln, 0)) →
        ln ∈ uncovOf (parseLines xs) fp)
    ∧ ((∃ l ∈ xs, effRecord l = some (fp, ln, c)) →
        ln ∈ totOf (parseLines xs) fp) := by
  refine ⟨?_, ?_, ?_, ?_⟩
  · have key : ∀ m, coverStep (ys.foldl coverStep (coverStep m line)) line
        = ys.foldl coverStep (coverStep m line) := by
      intro m
      rcases h : effRecord line with _ | r
      · rw [coverStep_none h]
      · obtain ⟨fp2, ln2, cnt2⟩ := r
        have h0 := mem_after_record h m
        exact coverStep_already h
          (totOf_foldl_mono ys _ fp2 h0.1)
          (fun hc => covOf_foldl_mono ys _ fp2 (h0.2.1 hc))
          (fun hc => uncovOf_foldl_mono ys _ fp2 (h0.2.2 hc))
    simp only [parseLines, List.foldl_append, List.foldl_cons]
    rw [key]
  · rintro ⟨l, hl, hrec⟩ hc
    exact (mem_of_record_in_stream hl hrec).2.1 hc
  · rintro ⟨l, hl, hrec⟩
    exact (mem_of_record_in_stream hl hrec).2.2 rfl
  · rintro ⟨l, hl, hrec⟩
    exact (mem_of_record_in_stream hl hrec).1

/-- C8 (witness): the profile holds the same record twice and a
conflicting count-0 record for the same line of the same file;
re-processing the duplicate is a no-op and line 1 of `a.go` ends up in
both the covered and the uncovered set, and once in the total set. -/
theorem c8_witness :
    parseLines (["a.go:1.1,1.1 1 1", "a.go:1.1,1.1 1 0"]
          ++ "a.go:1.1,1.1 1 1" :: [] ++ "a.go:1.1,1.1 1 1" :: [])
        = parseLines (["a.go:1.1,1.1 1 1", "a.go:1.1,1.1 1 0"]
          ++ "a.go:1.1,1.1 1 1" :: [] ++ [])
    ∧ 1 ∈ covOf (parseLines ["a.go:1.1,1.1 1 1", "a.go:1.1,1.1 1 0"]) "a.go"
    ∧ 1 ∈ uncovOf (parseLines ["a.go:1.1,1.1 1 1", "a.go:1.1,1.1 1 0"]) "a.go"
    ∧ 1 ∈ totOf (parseLines ["a.go:1.1,1.1 1 1", "a.go:1.1,1.1 1 0"]) "a.go" :=
  ⟨(c8_set_semantics ["a.go:1.1,1.1 1 1", "a.go:1.1,1.1 1 0"] []
      [] "a.go:1.1,1.1 1 1" "a.go" 1 1).1,
    (c8_set_semantics ["a.go:1.1,1.1 1 1", "a.go:1.1,1.1 1 0"] []
      [] "a.go:1.1,1.1 1 1" "a.go" 1 1).2.1 (by decide) (by decide),
    (c8_set_semantics ["a.go:1.1,1.1 1 1", "a.go:1.1,1.1 1 0"] []
      [] "a.go:1.1,1.1 1 1" "a.go" 1 1).2.2.1 (by decide),
    (c8_set_semantics ["a.go:1.1,1.1 1 1", "a.go:1.1,1.1 1 0"] []
      [] "a.go:1.1,1.1 1 1" "a.go" 1 1).2.2.2 (by decide)⟩

/-! ## C9: covered/uncovered/total invariants -/

theorem coverFold_union_inv (ls : List String) :
    ∀ m, (∀ kv ∈ m, kv.2.covered ∪ kv.2.uncovered = kv.2.total) →
      ∀ kv ∈ ls.foldl coverStep m,
        kv.2.covered ∪ kv.2.uncovered = kv.2.total := by
  induction ls with
  | nil =>
      intro m hm
      simpa using hm
  | cons l rest ih =>
      intro m hm
      apply ih
      rcases h : effRecord l with _ | r
      · rw [coverStep_none h]
        exact hm
      · obtain ⟨fp, ln, cnt⟩ := r
        simp only [coverStep, h, applyRecord]
        refine @mem_modifyA_forall _ _ _ _
          (fun v : FileCoverage => v.covered ∪ v.uncovered = v.total) ?_ ?_
        · exact @mem_ensureA_forall _ _ _ _
            (fun v : FileCoverage => v.covered ∪ v.uncovered = v.total) hm
            (by simp [mkFC])
        · intro v hv
          by_cases hc : 0 < cnt <;> simp only [hc, if_pos, if_neg, ite_true,
            ite_false, reduceIte]
          · show insert ln v.covered ∪ v.uncovered = insert ln v.total
            rw [Finset.insert_union, hv]
          · show v.covered ∪ insert ln v.uncovered = insert ln v.total
            rw [Finset.union_insert, hv]

mutual
/-- Every non-directory node of the tree has covered ≤ total and a
percentage of at most 100. -/
def fileNodesOK : TreeNode → Bool
  | .node _ d ch c tot _ cov =>
      (if d then true else decide (c ≤ tot) && decide (cov ≤ 100))
        && fileNodesOKList ch

def fileNodesOKList : List TreeNode → Bool
  | [] => true
  | t :: ts => fileNodesOK t && fileNodesOKList ts
end

theorem fileNodesOKList_iff (ts : List TreeNode) :
    fileNodesOKList ts = true ↔ ∀ t ∈ ts, fileNodesOK t = true := by
  induction ts with
  | nil => simp [fileNodesOKList]
  | cons t ts ih => simp [fileNodesOKList, ih]

theorem mem_replaceFirst {l : List TreeNode} {nm : String} {n x : TreeNode}
    (hx : x ∈ replaceFirst l nm n) : x ∈ l ∨ x = n := by
  induction l with
  | nil => simp [replaceFirst] at hx
  | cons c cs ih =>
      rw [replaceFirst] at hx
      split_ifs at hx
      · rcases List.mem_cons.mp hx with h | h
        · exact Or.inr h
        · exact Or.inl (List.mem_cons.mpr (Or.inr h))
      · rcases List.mem_cons.mp hx with h | h
        · exact Or.inl (List.mem_cons.mpr (Or.inl h))
        · rcases ih h with h2 | h2
          · exact Or.inl (List.mem_cons.mpr (Or.inr h2))
          · exact Or.inr h2

theorem fileNodesOK_newNode (p : String) (b : Bool) :
    fileNodesOK (newNode p b) = true := by
  cases b <;> simp [newNode, fileNodesOK, fileNodesOKList]

theorem coverage_le_100 {c tot : Nat} (h : c ≤ tot) (hpos : 0 < tot) :
    ((c : ℚ) / (tot : ℚ)) * 100 ≤ 100 := by
  have hpos' : (0 : ℚ) < (tot : ℚ) := by exact_mod_cast hpos
  have h1 : (c : ℚ) / (tot : ℚ) ≤ 1 := by
    rw [div_le_one hpos']
    exact_mod_cast h
  calc ((c : ℚ) / (tot : ℚ)) * 100 ≤ 1 * 100 := by
        apply mul_le_mul_of_nonneg_right h1
        norm_num
    _ = 100 := by norm_num

theorem fileNodesOK_setLeafData {t : TreeNode} {fc : FileCoverage}
    (ht : fileNodesOK t = true) (hfc : fc.covered.card ≤ fc.total.card) :
    fileNodesOK (setLeafData t fc) = true := by
  obtain ⟨nm, d, ch, c, tot, unc, cov⟩ := t
  rw [setLeafData]
  rw [fileNodesOK] at ht ⊢
  rw [Bool.and_eq_true] at ht ⊢
  refine ⟨?_, ht.2⟩
  cases d
  · simp only [if_neg Bool.false_ne_true] at ht ⊢
    rw [Bool.and_eq_true, decide_eq_true_eq, decide_eq_true_eq] at ht ⊢
    refine ⟨hfc, ?_⟩
    split_ifs with hpos
    · exact coverage_le_100 hfc hpos
    · exact ht.1.2
  · simp

theorem fileNodesOK_insertPath :
    ∀ (parts : List String) (t : TreeNode) (fc : FileCoverage),
      fileNodesOK t = true → fc.covered.card ≤ fc.total.card →
      fileNodesOK (insertPath t parts fc) = true := by
  intro parts
  induction parts with
  | nil =>
      intro t fc ht hfc
      rw [insertPath]
      exact fileNodesOK_setLeafData ht hfc
  | cons p rest ih =>
      intro t fc ht hfc
      obtain ⟨nm, d, ch, c, tot, unc, cov⟩ := t
      rw [insertPath]
      rcases hfind : (TreeNode.node nm d ch c tot unc cov).children.find?
          (fun x => x.name = p) with _ | ch1
      · rw [hfind]
        simp only [TreeNode.setChildren, fileNodesOK, Bool.and_eq_true] at ht ⊢
        refine ⟨ht.1, ?_⟩
        rw [fileNodesOKList_iff] at ht ⊢
        intro x hx
        rcases List.mem_append.mp hx with h | h
        · exact ht.2 x h
        · rcases List.mem_singleton.mp (by simpa using h) with rfl
          exact ih (newNode p !rest.isEmpty) fc (fileNodesOK_newNode p _) hfc
      · have hch1 : ch1 ∈ ch := by
          have := List.mem_of_find?_eq_some hfind
          simpa [TreeNode.children] using this
        rw [hfind]
        simp only [TreeNode.setChildren, fileNodesOK, Bool.and_eq_true] at ht ⊢
        refine ⟨ht.1, ?_⟩
        rw [fileNodesOKList_iff] at ht ⊢
        intro x hx
        rcases mem_replaceFirst (by simpa [TreeNode.children] using hx)
          with h | h
        · exact ht.2 x h
        · subst h
          exact ih ch1 fc (ht.2 ch1 hch1) hfc

theorem fileNodesOK_buildTree (fileData : List (String × FileCoverage))
    (hfd : ∀ kv ∈ fileData, kv.2.covered.card ≤ kv.2.total.card) :
    fileNodesOK (buildTree fileData) = true := by
  rw [buildTree]
  have aux : ∀ (fd : List (String × FileCoverage)) (t : TreeNode),
      (∀ kv ∈ fd, kv.2.covered.card ≤ kv.2.total.card) →
      fileNodesOK t = true →
      fileNodesOK (fd.foldl (fun t kv => insertPath t (pathParts kv.1) kv.2) t)
        = true := by
    intro fd
    induction fd with
    | nil =>
        intro t _ ht
        simpa using ht
    | cons kv rest ih =>
        intro t hgood ht
        simp only [List.foldl_cons]
        apply ih
        · intro kv2 h2
          exact hgood kv2 (by simp [h2])
        · exact fileNodesOK_insertPath (pathParts kv.1) t kv.2 ht
            (hgood kv (by simp))
  exact aux fileData rootNode hfd rfl

/-- C9: for every file entry `parseProfile` produces, covered and
uncovered are subsets of total and their union is total; consequently
every non-directory node of the built tree has covered ≤ total and a
percentage of at most 100, even when duplicate records disagree. -/
theorem c9_cover_invariants (lines : List String) :
    (∀ kv ∈ parseLines lines,
        kv.2.covered ⊆ kv.2.total ∧ kv.2.uncovered ⊆ kv.2.total
          ∧ kv.2.covered ∪ kv.2.uncovered = kv.2.total)
    ∧ fileNodesOK (buildTree (parseLines lines)) = true := by
  have hu : ∀ kv ∈ parseLines lines,
      kv.2.covered ∪ kv.2.uncovered = kv.2.total := by
    have := coverFold_union_inv lines [] (by simp)
    simpa [parseLines] using this
  constructor
  · intro kv hkv
    have h := hu kv hkv
    refine ⟨?_, ?_, h⟩
    · rw [← h]
      exact Finset.subset_union_left
    · rw [← h]
      exact Finset.subset_union_right
  · apply fileNodesOK_buildTree
    intro kv hkv
    have h := hu kv hkv
    have hsub : kv.2.covered ⊆ kv.2.total := by
      rw [← h]
      exact Finset.subset_union_left
    exact Finset.card_le_card hsub

/-- C9 (witness): the invariants evaluated on a two-record profile with
one covered and one uncovered line. -/
theorem c9_witness :
    (({1} : Finset ℕ) ⊆ ({2, 1} : Finset ℕ) ∧ ({2} : Finset ℕ) ⊆ ({2, 1} : Finset ℕ)
        ∧ ({1} : Finset ℕ) ∪ ({2} : Finset ℕ) = ({2, 1} : Finset ℕ))
    ∧ fileNodesOK (buildTree (parseLines
        ["x.go:1.1,1.1 1 1", "x.go:2.1,2.1 1 0"])) = true := by
  constructor
  · exact (c9_cover_invariants ["x.go:1.1,1.1 1 1", "x.go:2.1,2.1 1 0"]).1
      ("x.go", ⟨"x.go", {1}, {2}, {2, 1}⟩) (by decide)
  · exact (c9_cover_invariants ["x.go:1.1,1.1 1 1", "x.go:2.1,2.1 1 0"]).2

end Gest
